import Mathlib

/-!
Verification development for the split/merge orchestration engine of
`spike_psvae/before_deconv_merge_split.py`.

The label array is modelled as a `List ℤ` (one signed label per event, `-1`
meaning triaged).  Pure orchestration logic (precondition checks, the split
schedulers relabelling, the merge schedulers worklist loop, candidate
filtering and sorting) is translated directly from the source.  External
numeric collaborators (raw-template estimation, PCA/LDA/HDBSCAN, the isocut
dip test, `calc_resid_matrix`, the EM updates of the bimodal pursuit) are
modelled as oracle functions passed in as parameters, mirroring the
module boundaries of the source file.
-/

namespace SpikePsvae

/-- Fold-based maximum of a list of integers with seed `-1`.  For a nonempty
list whose entries are all `≥ -1` (the label-array domain) this coincides
with `numpy`s `arr.max()`. -/
def maxN1 (l : List ℤ) : ℤ := l.foldr max (-1)

theorem neg_one_le_maxN1 (l : List ℤ) : -1 ≤ maxN1 l := by
  induction l with
  | nil => simp [maxN1]
  | cons a t ih => simpa [maxN1] using Or.inr (by simpa [maxN1] using ih)

theorem le_maxN1 {l : List ℤ} {v : ℤ} (h : v ∈ l) : v ≤ maxN1 l := by
  induction l with
  | nil => cases h
  | cons a t ih =>
    rcases List.mem_cons.1 h with rfl | h
    · simp [maxN1]
    · exact le_trans (ih h) (by simp [maxN1])

theorem maxN1_le {l : List ℤ} {b : ℤ} (hb : -1 ≤ b) (h : ∀ v ∈ l, v ≤ b) :
    maxN1 l ≤ b := by
  induction l with
  | nil => simpa [maxN1] using hb
  | cons a t ih =>
    simp only [maxN1, List.foldr_cons, max_le_iff]
    exact ⟨h a (List.mem_cons_self a t), ih fun v hv => h v (List.mem_cons_of_mem a hv)⟩

theorem maxN1_mem {l : List ℤ} (hne : l ≠ []) (hd : ∀ v ∈ l, -1 ≤ v) :
    maxN1 l ∈ l := by
  induction l with
  | nil => exact absurd rfl hne
  | cons a t ih =>
    cases t with
    | nil =>
      have ha : -1 ≤ a := hd a (List.mem_cons_self a [])
      simp [maxN1, max_eq_left ha]
    | cons b u =>
      have ht : maxN1 (b :: u) ∈ b :: u :=
        ih (by simp) fun v hv => hd v (List.mem_cons_of_mem a hv)
      have : maxN1 (a :: b :: u) = max a (maxN1 (b :: u)) := by
        simp [maxN1]
      rcases max_choice a (maxN1 (b :: u)) with hc | hc
      · rw [this, hc]; exact List.mem_cons_self a _
      · rw [this, hc]; exact List.mem_cons_of_mem a ht

/-- Number of distinct non-negative values of a label array, modelling
`np.unique(labels[labels >= 0]).size`. -/
def n_nonneg_values (l : List ℤ) : ℕ :=
  ((l.filter (fun v => decide (0 ≤ v))).dedup).length

/-- Spec-side notion of a contiguous-from-zero non-negative label set: the
non-negative values present are downward closed. -/
def NonnegDownClosed (l : List ℤ) : Prop :=
  ∀ v ∈ l, 0 ≤ v → ∀ w : ℤ, 0 ≤ w → w ≤ v → w ∈ l

/-- Claim-side compaction property: the array holds only `-1` and a
contiguous block of labels starting at zero. -/
def LabelsCompact (l : List ℤ) : Prop :=
  ∃ K : ℕ, (∀ v ∈ l, v = -1 ∨ (0 ≤ v ∧ v < (K : ℤ))) ∧
    (∀ j : ℕ, j < K → (j : ℤ) ∈ l)

/-- Entry validation of `split_clusters` (source lines 392-401): first the
contiguity test `labels.max() + 1 == np.unique(labels[labels >= 0]).size`,
then the length comparison against the datasets event count. -/
def split_clusters_checks (labels : List ℤ) (n_events : ℕ) : Except String Unit :=
  if maxN1 labels + 1 = (n_nonneg_values labels : ℤ) then
    if labels.length = n_events then .ok ()
    else .error ("labels shape does not match h5. Maybe you have passed triaged labels?")
  else .error ("Please pass contiguous labels to the split step.")

/-- Indices of a label array currently holding value `i`, modelling
`np.flatnonzero(new_labels == i)`. -/
def flatnonzero_eq (l : List ℤ) (i : ℤ) : List ℕ :=
  (List.range l.length).filter (fun j => decide (l.getD j 0 = i))

/-- Sorted distinct values of a list with `-1` removed, modelling
`np.setdiff1d(arr, [-1])`. -/
def setdiff_neg1 (l : List ℤ) : List ℤ :=
  List.insertionSort (· ≤ ·) ((l.filter (fun v => decide (v ≠ -1))).dedup)

theorem mem_setdiff_neg1 {l : List ℤ} {v : ℤ} :
    v ∈ setdiff_neg1 l ↔ v ∈ l ∧ v ≠ -1 := by
  unfold setdiff_neg1
  rw [(List.perm_insertionSort _ _).mem_iff, List.mem_dedup, List.mem_filter]
  simp

/-- Pointwise label writes: each pair `(j, s)` writes value `s` at index `j`
unless `s = 0`.  This models the pair of fancy-index assignments
`new_labels[in_unit[unit_new_labels < 0]] = ...` and
`new_labels[in_unit[unit_new_labels > 0]] = ...` of the split scheduler,
which together write exactly the nonzero (already shifted) sub-labels. -/
def write_nonzero (ps : List (ℕ × ℤ)) (l : List ℤ) : List ℤ :=
  ps.foldl (fun ls p => if p.2 ≠ 0 then ls.set p.1 p.2 else ls) l

/-- Relabelling step of the split scheduler for one completed job (source
lines 450-459): sub-labels `> 0` are shifted by the running maximum, nonzero
shifted sub-labels are written back at the jobs member indices, and the
running maximum becomes the maximum label now present among the members. -/
def apply_split_result (in_unit : List ℕ) (subs : List ℤ) (labels : List ℤ)
    (cur_max_label : ℤ) : List ℤ × ℤ :=
  let shifted := subs.map (fun s => if 0 < s then s + cur_max_label else s)
  let labels' := write_nonzero (in_unit.zip shifted) labels
  (labels', maxN1 (in_unit.map (fun j => labels'.getD j 0)))

/-- Worklist drain of one split step: jobs are processed in submission
order; a splitting job rewrites the global labels and, when the step is
recursive, appends one child job per label now present among its members
(source lines 437-467).  The `fuel` parameter bounds the number of processed
jobs; every theorem below holds for every fuel value. -/
def split_drain (test : List ℕ → Option (List ℤ)) (recursive : Bool) :
    ℕ → List ℤ → ℤ → List (List ℕ) → List ℤ
  | _, labels, _, [] => labels
  | 0, labels, _, _ :: _ => labels
  | Nat.succ fuel, labels, cur_max, in_unit :: queue =>
    match test in_unit with
    | none => split_drain test recursive fuel labels cur_max queue
    | some subs =>
      let res := apply_split_result in_unit subs labels cur_max
      let children := if recursive then
          (setdiff_neg1 (in_unit.map (fun j => res.1.getD j 0))).map
            (fun c => flatnonzero_eq res.1 c)
        else []
      split_drain test recursive fuel res.1 res.2 (queue ++ children)

/-- One split step (one `(split_step, recursive)` pair of the source loop,
lines 428-469): snapshot the distinct non-negative labels, submit one job
per label, then drain the growing worklist. -/
def split_pass (test : List ℕ → Option (List ℤ)) (recursive : Bool)
    (fuel : ℕ) (labels : List ℤ) : List ℤ :=
  let cur_labels_set := setdiff_neg1 labels
  let cur_max_label := maxN1 cur_labels_set
  let jobs := cur_labels_set.map (fun i => flatnonzero_eq labels i)
  split_drain test recursive fuel labels cur_max_label jobs

/-- Top level of `split_clusters`: entry validation, then the split steps
run in sequence, each starting from the labels left by the previous one.
Each steps statistical verdict is an oracle `List ℕ → Option (List ℤ)`
(`none` meaning `is_split = False`). -/
def split_clusters (fuel : ℕ) (labels : List ℤ) (n_events : ℕ)
    (split_steps : List ((List ℕ → Option (List ℤ)) × Bool)) :
    Except String (List ℤ) :=
  match split_clusters_checks labels n_events with
  | .error e => .error e
  | .ok _ => .ok (split_steps.foldl (fun ls step => split_pass step.1 step.2 fuel ls) labels)

/-! ### Entry validation (claim C4) -/

/-- Finset of non-negative label values present in an array. -/
def nonnegSet (l : List ℤ) : Finset ℤ := l.toFinset.filter (fun v => 0 ≤ v)

theorem n_nonneg_values_eq_card (l : List ℤ) :
    n_nonneg_values l = (nonnegSet l).card := by
  unfold n_nonneg_values nonnegSet
  rw [← List.card_toFinset, List.toFinset_filter]
  congr 1
  ext v
  simp

theorem mem_nonnegSet {l : List ℤ} {v : ℤ} :
    v ∈ nonnegSet l ↔ v ∈ l ∧ 0 ≤ v := by
  simp [nonnegSet]

/-- Equivalence of the source contiguity test
`labels.max() + 1 == np.unique(labels[labels >= 0]).size` with the
mathematical property that the non-negative values present are downward
closed, over the label-array domain (nonempty, entries `≥ -1`). -/
theorem contig_check_iff {l : List ℤ} (hne : l ≠ []) (hd : ∀ v ∈ l, -1 ≤ v) :
    maxN1 l + 1 = (n_nonneg_values l : ℤ) ↔ NonnegDownClosed l := by
  by_cases hnn : ∃ v ∈ l, 0 ≤ v
  · obtain ⟨v0, hv0, hv00⟩ := hnn
    have hM0 : 0 ≤ maxN1 l := le_trans hv00 (le_maxN1 hv0)
    have hMmem : maxN1 l ∈ l := maxN1_mem hne hd
    have hsub : nonnegSet l ⊆ Finset.Icc 0 (maxN1 l) := by
      intro x hx
      rw [mem_nonnegSet] at hx
      exact Finset.mem_Icc.2 ⟨hx.2, le_maxN1 hx.1⟩
    have hcard : ((Finset.Icc (0 : ℤ) (maxN1 l)).card : ℤ) = maxN1 l + 1 := by
      rw [Int.card_Icc]
      omega
    constructor
    · intro h
      have hcards : (Finset.Icc (0 : ℤ) (maxN1 l)).card ≤ (nonnegSet l).card := by
        rw [n_nonneg_values_eq_card] at h
        omega
      have heq := Finset.eq_of_subset_of_card_le hsub hcards
      intro v hv hv0 w hw0 hwv
      have hwI : w ∈ Finset.Icc (0 : ℤ) (maxN1 l) :=
        Finset.mem_Icc.2 ⟨hw0, le_trans hwv (le_maxN1 hv)⟩
      rw [← heq, mem_nonnegSet] at hwI
      exact hwI.1
    · intro hdc
      have hsup : Finset.Icc (0 : ℤ) (maxN1 l) ⊆ nonnegSet l := by
        intro w hw
        rw [Finset.mem_Icc] at hw
        exact mem_nonnegSet.2 ⟨hdc (maxN1 l) hMmem hM0 w hw.1 hw.2, hw.1⟩
      have heq := Finset.Subset.antisymm hsub hsup
      rw [n_nonneg_values_eq_card, heq]
      omega
  · push_neg at hnn
    have hall : ∀ v ∈ l, v = -1 := by
      intro v hv
      have h1 := hnn v hv
      have h2 := hd v hv
      omega
    have hmax : maxN1 l = -1 :=
      le_antisymm (maxN1_le le_rfl fun v hv => (hall v hv).le) (neg_one_le_maxN1 l)
    have hS : nonnegSet l = ∅ := by
      ext x
      rw [mem_nonnegSet]
      simp only [Finset.not_mem_empty, iff_false, not_and]
      intro hx
      have := hall x hx
      omega
    constructor
    · intro _ v hv hv0
      have := hall v hv
      omega
    · intro _
      rw [n_nonneg_values_eq_card, hS, hmax]
      simp

/-- Bundled entry contract of `split_clusters`: the checks succeed exactly
on contiguous label arrays of the right length, every other input yields a
fatal error, and a failed check makes the whole run return that error with
no label array produced (no partial work). -/
def SplitChecksSpec (fuel : ℕ) (labels : List ℤ) (n_events : ℕ)
    (steps : List ((List ℕ → Option (List ℤ)) × Bool)) : Prop :=
  (split_clusters_checks labels n_events = .ok () ↔
    (NonnegDownClosed labels ∧ labels.length = n_events)) ∧
  ((∃ e, split_clusters fuel labels n_events steps = .error e) ↔
    ¬ (NonnegDownClosed labels ∧ labels.length = n_events)) ∧
  (∀ e, split_clusters_checks labels n_events = .error e →
    split_clusters fuel labels n_events steps = .error e)

/-- Claim C4: `split_clusters` fails fatally, with no label mutation,
exactly when the input labels are not contiguous from zero or their length
does not match the datasets event count. -/
theorem split_clusters_entry_contract (fuel : ℕ) (labels : List ℤ)
    (n_events : ℕ) (steps : List ((List ℕ → Option (List ℤ)) × Bool))
    (hne : labels ≠ []) (hd : ∀ v ∈ labels, -1 ≤ v) :
    SplitChecksSpec fuel labels n_events steps := by
  have hiff := contig_check_iff hne hd
  refine ⟨?_, ?_, ?_⟩
  · unfold split_clusters_checks
    by_cases h1 : maxN1 labels + 1 = (n_nonneg_values labels : ℤ)
    · by_cases h2 : labels.length = n_events
      · simp [h1, h2, hiff.1 h1]
      · simp [h1, h2]
    · simp only [h1, if_false]
      constructor
      · intro h; cases h
      · intro h
        exact absurd (hiff.2 h.1) h1
  · unfold split_clusters split_clusters_checks
    by_cases h1 : maxN1 labels + 1 = (n_nonneg_values labels : ℤ)
    · by_cases h2 : labels.length = n_events
      · simp [h1, h2, hiff.1 h1]
      · simp [h1, h2]
    · simp only [h1, if_false]
      constructor
      · intro _
        intro hc
        exact absurd (hiff.2 hc.1) h1
      · intro _
        exact ⟨_, rfl⟩
  · intro e he
    unfold split_clusters
    rw [he]

/-- Witness for C4 at a concrete valid input. -/
theorem split_clusters_entry_contract_witness :
    SplitChecksSpec 4 [0, 1, -1] 3 [] :=
  split_clusters_entry_contract 4 [0, 1, -1] 3 [] (by decide) (by decide)

/-! ### Pointwise description of the split relabelling (claim C2) -/

theorem write_nonzero_nil (l : List ℤ) : write_nonzero [] l = l := rfl

theorem write_nonzero_cons (p : ℕ × ℤ) (ps : List (ℕ × ℤ)) (l : List ℤ) :
    write_nonzero (p :: ps) l =
      write_nonzero ps (if p.2 ≠ 0 then l.set p.1 p.2 else l) := by
  unfold write_nonzero
  rw [List.foldl_cons]

theorem length_write_nonzero (ps : List (ℕ × ℤ)) (l : List ℤ) :
    (write_nonzero ps l).length = l.length := by
  induction ps generalizing l with
  | nil => rfl
  | cons p ps ih =>
    rw [write_nonzero_cons, ih]
    by_cases h : p.2 = 0 <;> simp [h]

theorem getD_write_nonzero_not_mem {ps : List (ℕ × ℤ)} {l : List ℤ} {j : ℕ}
    (h : ∀ p ∈ ps, p.1 ≠ j) :
    (write_nonzero ps l).getD j 0 = l.getD j 0 := by
  induction ps generalizing l with
  | nil => rfl
  | cons p ps ih =>
    rw [write_nonzero_cons]
    rw [ih fun q hq => h q (List.mem_cons_of_mem p hq)]
    by_cases hz : p.2 = 0
    · simp [hz]
    · rw [if_pos hz]
      simp [List.getD_eq_getElem?_getD,
        List.getElem?_set_ne (h p (List.mem_cons_self p ps))]

theorem getD_write_nonzero_mem {ps : List (ℕ × ℤ)} {l : List ℤ} {j : ℕ} {v : ℤ}
    (hnd : (ps.map Prod.fst).Nodup) (hmem : (j, v) ∈ ps) (hj : j < l.length) :
    (write_nonzero ps l).getD j 0 = if v ≠ 0 then v else l.getD j 0 := by
  induction ps generalizing l with
  | nil => cases hmem
  | cons p ps ih =>
    rcases List.mem_cons.1 hmem with rfl | hmem'
    · have hrest : ∀ q ∈ ps, q.1 ≠ j := by
        intro q hq
        have : j ∉ ps.map Prod.fst := by
          simpa using (List.nodup_cons.1 hnd).1
        intro hc
        exact this (hc ▸ List.mem_map_of_mem Prod.fst hq)
      rw [write_nonzero_cons, getD_write_nonzero_not_mem hrest]
      by_cases hz : v = 0
      · simp [hz]
      · simp [hz, List.getD_eq_getElem?_getD, List.getElem?_set_self, hj]
    · have hne : p.1 ≠ j := by
        have hj' : j ∈ ps.map Prod.fst := by
          simpa using List.mem_map_of_mem Prod.fst hmem'
        intro hc
        exact (List.nodup_cons.1 hnd).1 (hc ▸ hj')
      rw [write_nonzero_cons]
      have hlen : j < (if p.2 ≠ 0 then l.set p.1 p.2 else l).length := by
        by_cases hz : p.2 = 0 <;> simp [hz, hj]
      rw [ih (List.nodup_cons.1 hnd).2 hmem' hlen]
      by_cases hz : p.2 = 0
      · simp [hz]
      · rw [if_pos hz]
        simp [List.getD_eq_getElem?_getD, List.getElem?_set_ne hne]

theorem mem_write_nonzero {ps : List (ℕ × ℤ)} {l : List ℤ} {v : ℤ}
    (h : v ∈ write_nonzero ps l) : v ∈ l ∨ ∃ p ∈ ps, p.2 = v := by
  induction ps generalizing l with
  | nil => exact Or.inl h
  | cons p ps ih =>
    rw [write_nonzero_cons] at h
    rcases ih h with hmem | ⟨q, hq, he⟩
    · by_cases hz : p.2 = 0
      · rw [if_neg (by simp [hz])] at hmem
        exact Or.inl hmem
      · rw [if_pos hz] at hmem
        rcases List.mem_or_eq_of_mem_set hmem with hmem' | rfl
        · exact Or.inl hmem'
        · exact Or.inr ⟨p, List.mem_cons_self p ps, rfl⟩
    · exact Or.inr ⟨q, List.mem_cons_of_mem p hq, he⟩

theorem write_nonzero_dom {ps : List (ℕ × ℤ)} {l : List ℤ}
    (hl : ∀ v ∈ l, -1 ≤ v) (hp : ∀ p ∈ ps, -1 ≤ p.2) :
    ∀ v ∈ write_nonzero ps l, -1 ≤ v := by
  intro v hv
  rcases mem_write_nonzero hv with h | ⟨p, hpm, he⟩
  · exact hl v h
  · exact he ▸ hp p hpm

/-- Bundled description of one completed split jobs relabelling: members
with a negative sub-label become `-1`, members with sub-label `0` keep their
stored label, members with sub-label `s ≥ 1` receive
`cur_max_label + s`, and the returned running maximum is the maximum label
now present among the jobs members. -/
def SplitRemapSpec (in_unit : List ℕ) (subs : List ℤ) (labels : List ℤ)
    (cur_max_label : ℤ) : Prop :=
  let res := apply_split_result in_unit subs labels cur_max_label
  (∀ k, k < in_unit.length →
    (subs.getD k 0 < 0 → res.1.getD (in_unit.getD k 0) 0 = -1) ∧
    (subs.getD k 0 = 0 →
      res.1.getD (in_unit.getD k 0) 0 = labels.getD (in_unit.getD k 0) 0) ∧
    (1 ≤ subs.getD k 0 →
      res.1.getD (in_unit.getD k 0) 0 = cur_max_label + subs.getD k 0)) ∧
  (∀ j ∈ in_unit, res.1.getD j 0 ≤ res.2) ∧
  (in_unit ≠ [] → res.2 ∈ in_unit.map (fun j => res.1.getD j 0))

/-- Claim C2: pointwise behavior of the split schedulers remapping of a
jobs reported sub-labels into the global label space (source lines
450-459), under the conditions the scheduler maintains: distinct in-bound
member indices, one sub-label per member, sub-labels `≥ -1` (the split
tests only ever use `-1` as a negative label), a label array over
`{-1} ∪ ℕ` and a non-negative running maximum. -/
theorem split_remap_spec (in_unit : List ℕ) (subs : List ℤ) (labels : List ℤ)
    (cur_max_label : ℤ) (hnd : in_unit.Nodup) (hlen : subs.length = in_unit.length)
    (hbd : ∀ j ∈ in_unit, j < labels.length) (hneg : ∀ s ∈ subs, -1 ≤ s)
    (hlab : ∀ v ∈ labels, -1 ≤ v) (hcm : 0 ≤ cur_max_label) :
    SplitRemapSpec in_unit subs labels cur_max_label := by
  unfold SplitRemapSpec apply_split_result
  set f : ℤ → ℤ := fun s => if 0 < s then s + cur_max_label else s with hf
  set shifted := subs.map f with hsh
  set labels' := write_nonzero (in_unit.zip shifted) labels with hl'
  have hshlen : shifted.length = subs.length := List.length_map subs f
  have hfst : (in_unit.zip shifted).map Prod.fst = in_unit :=
    List.map_fst_zip in_unit shifted (by omega)
  have hndz : ((in_unit.zip shifted).map Prod.fst).Nodup := by rw [hfst]; exact hnd
  have hshdom : ∀ v ∈ shifted, -1 ≤ v := by
    intro v hv
    rw [hsh] at hv
    obtain ⟨s, hs, rfl⟩ := List.mem_map.1 hv
    by_cases hpos : 0 < s
    · rw [hf]
      simp only [hpos, if_true]
      have := hneg s hs
      omega
    · rw [hf]
      simp only [hpos, if_false]
      exact hneg s hs
  have hdom' : ∀ v ∈ labels', -1 ≤ v := by
    refine write_nonzero_dom hlab ?_
    intro p hp
    exact hshdom p.2 (List.of_mem_zip hp).2
  have hlen' : labels'.length = labels.length := length_write_nonzero _ _
  have key : ∀ k, (hk : k < in_unit.length) →
      labels'.getD (in_unit.getD k 0) 0 =
        if f (subs.getD k 0) ≠ 0 then f (subs.getD k 0)
        else labels.getD (in_unit.getD k 0) 0 := by
    intro k hk
    have hk2 : k < subs.length := by omega
    have hk3 : k < shifted.length := by omega
    have hkz : k < (in_unit.zip shifted).length := by
      rw [List.length_zip]
      omega
    have hjget : in_unit.getD k 0 = in_unit[k] := List.getD_eq_getElem in_unit 0 hk
    have hsget : subs.getD k 0 = subs[k] := List.getD_eq_getElem subs 0 hk2
    have hzget : (in_unit.zip shifted)[k] = (in_unit[k], shifted[k]) := List.getElem_zip
    have hmem : (in_unit[k], f subs[k]) ∈ in_unit.zip shifted := by
      have : shifted[k] = f subs[k] := by
        simp [hsh]
      rw [← this, ← hzget]
      exact List.getElem_mem hkz
    have hjbd : in_unit[k] < labels.length :=
      hbd in_unit[k] (List.getElem_mem hk)
    rw [hjget, hsget, hl']
    exact getD_write_nonzero_mem hndz hmem hjbd
  refine ⟨?_, ?_, ?_⟩
  · intro k hk
    have hk2 : k < subs.length := by omega
    have hsmem : subs.getD k 0 ∈ subs := by
      rw [List.getD_eq_getElem subs 0 hk2]
      exact List.getElem_mem hk2
    have hge := hneg _ hsmem
    refine ⟨?_, ?_, ?_⟩
    · intro hneg'
      have hsval : subs.getD k 0 = -1 := by omega
      rw [key k hk, hsval, hf]
      norm_num
    · intro h0
      rw [key k hk, h0, hf]
      norm_num
    · intro h1
      have hfs : f (subs.getD k 0) = subs.getD k 0 + cur_max_label := by
        rw [hf]
        simp only [show 0 < subs.getD k 0 by omega, if_true]
      rw [key k hk, hfs]
      rw [if_pos (by omega)]
      ring
  · intro j hj
    exact le_maxN1 (List.mem_map_of_mem _ hj)
  · intro hne
    refine maxN1_mem ?_ ?_
    · simp [hne]
    · intro v hv
      obtain ⟨j, hj, rfl⟩ := List.mem_map.1 hv
      have hjbd : j < labels'.length := by
        rw [hlen']
        exact hbd j hj
      rw [List.getD_eq_getElem labels' 0 hjbd]
      exact hdom' _ (List.getElem_mem hjbd)

/-- Witness for C2 at a concrete job: members `[0, 2, 3]` of a four-event
array, sub-labels `[-1, 0, 2]`, running maximum `9`. -/
theorem split_remap_spec_witness : SplitRemapSpec [0, 2, 3] [-1, 0, 2] [5, 9, 5, 5] 9 :=
  split_remap_spec [0, 2, 3] [-1, 0, 2] [5, 9, 5, 5] 9 (by decide) (by decide)
    (by decide) (by decide) (by decide) (by decide)

/-! ### Invariants of the split scheduler loop (claims C1 and C10) -/

theorem mem_flatnonzero_eq {l : List ℤ} {i : ℤ} {j : ℕ} :
    j ∈ flatnonzero_eq l i ↔ j < l.length ∧ l.getD j 0 = i := by
  unfold flatnonzero_eq
  simp [List.mem_filter]

theorem apply_split_result_length (in_unit : List ℕ) (subs labels : List ℤ)
    (cm : ℤ) : (apply_split_result in_unit subs labels cm).1.length = labels.length :=
  length_write_nonzero _ _

theorem apply_split_result_dom (in_unit : List ℕ) (subs labels : List ℤ) (cm : ℤ)
    (hlab : ∀ v ∈ labels, -1 ≤ v) (hsub : ∀ s ∈ subs, -1 ≤ s) (hcm : -1 ≤ cm) :
    ∀ v ∈ (apply_split_result in_unit subs labels cm).1, -1 ≤ v := by
  refine write_nonzero_dom hlab ?_
  intro p hp
  have h2 := (List.of_mem_zip hp).2
  obtain ⟨s, hs, he⟩ := List.mem_map.1 h2
  rw [← he]
  by_cases hpos : 0 < s
  · simp only [hpos, if_true]
    have := hsub s hs
    omega
  · simp only [hpos, if_false]
    exact hsub s hs

theorem apply_split_result_getD_not_mem (in_unit : List ℕ) (subs labels : List ℤ)
    (cm : ℤ) {j : ℕ} (hj : j ∉ in_unit) :
    (apply_split_result in_unit subs labels cm).1.getD j 0 = labels.getD j 0 := by
  refine getD_write_nonzero_not_mem ?_
  intro p hp
  intro hc
  exact hj (hc ▸ (List.of_mem_zip hp).1)

theorem apply_split_result_cm_ge (in_unit : List ℕ) (subs labels : List ℤ)
    (cm : ℤ) : -1 ≤ (apply_split_result in_unit subs labels cm).2 :=
  neg_one_le_maxN1 _

/-- Master invariant of the split worklist drain: the label arrays length
is preserved, every entry stays in `{-1} ∪ ℕ`, and events that entered the
pass with label `-1` keep label `-1`.  The queue invariant states that
every pending jobs snapshot indices are in bounds and belong to events
whose pass-entry label is not `-1`. -/
theorem split_drain_invariant (test : List ℕ → Option (List ℤ)) (recursive : Bool)
    (input : List ℤ)
    (htest : ∀ u subs, test u = some subs → ∀ s ∈ subs, -1 ≤ s) :
    ∀ (fuel : ℕ) (labels : List ℤ) (cur_max : ℤ) (queue : List (List ℕ)),
    labels.length = input.length →
    (∀ v ∈ labels, -1 ≤ v) →
    (∀ j, j < input.length → input.getD j 0 = -1 → labels.getD j 0 = -1) →
    -1 ≤ cur_max →
    (∀ u ∈ queue, ∀ j ∈ u, j < input.length ∧ input.getD j 0 ≠ -1) →
    (split_drain test recursive fuel labels cur_max queue).length = input.length ∧
    (∀ v ∈ split_drain test recursive fuel labels cur_max queue, -1 ≤ v) ∧
    (∀ j, j < input.length → input.getD j 0 = -1 →
      (split_drain test recursive fuel labels cur_max queue).getD j 0 = -1) := by
  intro fuel
  induction fuel with
  | zero =>
    intro labels cur_max queue hlen hdom hpres _ _
    cases queue with
    | nil => exact ⟨hlen, hdom, hpres⟩
    | cons u queue => exact ⟨hlen, hdom, hpres⟩
  | succ fuel ih =>
    intro labels cur_max queue hlen hdom hpres hcm hq
    cases queue with
    | nil => exact ⟨hlen, hdom, hpres⟩
    | cons u queue =>
      rw [split_drain]
      cases htc : test u with
      | none =>
        exact ih labels cur_max queue hlen hdom hpres hcm
          fun w hw => hq w (List.mem_cons_of_mem u hw)
      | some subs =>
        have hsubs := htest u subs htc
        have hu := hq u (List.mem_cons_self u queue)
        have hlen1 : (apply_split_result u subs labels cur_max).1.length = input.length := by
          rw [apply_split_result_length]
          exact hlen
        have hdom1 : ∀ v ∈ (apply_split_result u subs labels cur_max).1, -1 ≤ v :=
          apply_split_result_dom u subs labels cur_max hdom hsubs hcm
        have hpres1 : ∀ j, j < input.length → input.getD j 0 = -1 →
            (apply_split_result u subs labels cur_max).1.getD j 0 = -1 := by
          intro j hj hin
          have hnm : j ∉ u := by
            intro hc
            exact (hu j hc).2 hin
          rw [apply_split_result_getD_not_mem u subs labels cur_max hnm]
          exact hpres j hj hin
        have hq1 : ∀ w ∈ queue ++ (if recursive then
            (setdiff_neg1 (u.map (fun j =>
              (apply_split_result u subs labels cur_max).1.getD j 0))).map
              (fun c => flatnonzero_eq (apply_split_result u subs labels cur_max).1 c)
            else []), ∀ j ∈ w, j < input.length ∧ input.getD j 0 ≠ -1 := by
          intro w hw
          rcases List.mem_append.1 hw with hw | hw
          · exact hq w (List.mem_cons_of_mem u hw)
          · cases recursive with
            | false => simp at hw
            | true =>
              simp only [if_true] at hw
              obtain ⟨c, hc, rfl⟩ := List.mem_map.1 hw
              have hcne : c ≠ -1 := (mem_setdiff_neg1.1 hc).2
              intro j hj
              have hj' := mem_flatnonzero_eq.1 hj
              have hjb : j < input.length := by
                rw [hlen1] at hj'
                exact hj'.1
              refine ⟨hjb, ?_⟩
              intro hin
              have := hpres1 j hjb hin
              rw [hj'.2] at this
              exact hcne this
        exact ih _ _ _ hlen1 hdom1 hpres1 (apply_split_result_cm_ge u subs labels cur_max) hq1

/-- Per-pass corollary of the drain invariant. -/
theorem split_pass_invariant (test : List ℕ → Option (List ℤ)) (recursive : Bool)
    (fuel : ℕ) (labels : List ℤ)
    (htest : ∀ u subs, test u = some subs → ∀ s ∈ subs, -1 ≤ s)
    (hlab : ∀ v ∈ labels, -1 ≤ v) :
    (split_pass test recursive fuel labels).length = labels.length ∧
    (∀ v ∈ split_pass test recursive fuel labels, -1 ≤ v) ∧
    (∀ j, j < labels.length → labels.getD j 0 = -1 →
      (split_pass test recursive fuel labels).getD j 0 = -1) := by
  unfold split_pass
  refine split_drain_invariant test recursive labels htest fuel labels _ _ rfl hlab
    (fun j _ h => h) (neg_one_le_maxN1 _) ?_
  intro u hu j hj
  obtain ⟨i, hi, rfl⟩ := List.mem_map.1 hu
  have hj' := mem_flatnonzero_eq.1 hj
  refine ⟨hj'.1, ?_⟩
  rw [hj'.2]
  exact (mem_setdiff_neg1.1 hi).2

/-- Whole-run corollary over the sequence of split steps. -/
theorem split_steps_invariant (steps : List ((List ℕ → Option (List ℤ)) × Bool))
    (fuel : ℕ)
    (htests : ∀ st ∈ steps, ∀ u subs, st.1 u = some subs → ∀ s ∈ subs, -1 ≤ s) :
    ∀ labels : List ℤ, (∀ v ∈ labels, -1 ≤ v) →
    (steps.foldl (fun ls step => split_pass step.1 step.2 fuel ls) labels).length
      = labels.length ∧
    (∀ v ∈ steps.foldl (fun ls step => split_pass step.1 step.2 fuel ls) labels, -1 ≤ v) ∧
    (∀ j, j < labels.length → labels.getD j 0 = -1 →
      (steps.foldl (fun ls step => split_pass step.1 step.2 fuel ls) labels).getD j 0 = -1) := by
  induction steps with
  | nil =>
    intro labels hlab
    exact ⟨rfl, hlab, fun j _ h => h⟩
  | cons st steps ih =>
    intro labels hlab
    have hst := htests st (List.mem_cons_self st steps)
    have h1 := split_pass_invariant st.1 st.2 fuel labels hst hlab
    have h2 := ih (fun w hw => htests w (List.mem_cons_of_mem st hw))
      (split_pass st.1 st.2 fuel labels) h1.2.1
    simp only [List.foldl_cons]
    refine ⟨by rw [h2.1, h1.1], h2.2.1, ?_⟩
    intro j hj hin
    have hj1 : j < (split_pass st.1 st.2 fuel labels).length := by
      rw [h1.1]
      exact hj
    exact h2.2.2 j hj1 (h1.2.2 j hj hin)

/-! ### Split test family (claims C7, C8, C9) -/

/-- Mean of a list of rationals (`arr.mean()`); `0` on the empty list,
which the theorems below never rely on. -/
def meanQ (l : List ℚ) : ℚ := l.sum / l.length

/-- Population variance of a list of rationals (`arr.var()`). -/
def varQ (l : List ℚ) : ℚ := meanQ (l.map (fun v => (v - meanQ l) ^ 2))

/-- Fraction of `true` entries of a boolean list (`mask.mean()`). -/
def fracTrue (l : List Bool) : ℚ := ((l.filter id).length : ℚ) / l.length

/-- Numeric guard threshold `1e-6` of the bimodal pursuit. -/
def eps6 : ℚ := 1 / 1000000

/-- Per-iteration summaries of the EM responsibilities that the control
flow and the final verdict of `ks_bimodal_pursuit_split` consume: the two
column sums of `rs` (`rs.sum(0)`), the assignment mask
`ilow = rs[:, 0] > rs[:, 1]`, and the mean confidences
`plow = rs[ilow, 0].mean()`, `phigh = rs[~ilow, 1].mean()`. -/
structure EmStats where
  mass1 : ℚ
  mass2 : ℚ
  ilow : List Bool
  plow : ℚ
  phigh : ℚ

/-- Loop state of the pursuit: the two variance estimates plus the last
computed responsibilities, `none` until line `rs = np.exp(logp)` of the
source has executed at least once. -/
structure PursuitState where
  s1 : ℚ
  s2 : ℚ
  rs : Option EmStats

/-- Oracles covering the floating-point content of
`ks_bimodal_pursuit_split`: feature loading with PCA (`feats` yields the
initial 1D projections `x`), the E step at iteration `k` (`em`), the
variance re-estimates of the M step (`upd`), and the waveform
reconstruction comparison (`recon`, yielding `cc`, `n1`, `n2`). -/
structure KsOracles where
  feats : List ℕ → List ℚ
  em : ℕ → ℚ → ℚ → EmStats
  upd : ℕ → EmStats → ℚ × ℚ
  recon : EmStats → ℚ × ℚ × ℚ

/-- One iteration of the pursuit loop with its three early-exit guards in
source order (lines 273-309): variance check at the top of the iteration,
responsibility-mass check after the E step, variance check after the M
step.  The boolean is `false` when the source would `break`. -/
def pursuit_iter (O : KsOracles) (k : ℕ) (st : PursuitState) : PursuitState × Bool :=
  if min st.s1 st.s2 < eps6 then (st, false)
  else
    let r := O.em k st.s1 st.s2
    if min r.mass1 r.mass2 < eps6 then ({ st with rs := some r }, false)
    else
      let s := O.upd k r
      if min s.1 s.2 < eps6 then ({ s1 := s.1, s2 := s.2, rs := some r }, false)
      else ({ s1 := s.1, s2 := s.2, rs := some r }, true)

/-- The `for k in range(50)` pursuit loop, counting down remaining
iterations. -/
def pursuit_loop (O : KsOracles) : ℕ → PursuitState → PursuitState
  | 0, st => st
  | Nat.succ n, st =>
    let step := pursuit_iter O (50 - Nat.succ n) st
    if step.2 then pursuit_loop O n step.1 else step.1

/-- Post-loop verdict of `ks_bimodal_pursuit_split` (source lines 336-375):
population-fraction guard, waveform-similarity guard, and the final
confidence criterion, in source order. -/
def ks_split_verdict (min_split_prop aucsplit max_split_corr min_amp_sim : ℚ)
    (ilow : List Bool) (plow phigh cc n1 n2 : ℚ) : Bool × Option (List ℤ) :=
  let nremove := min (fracTrue ilow) (fracTrue (ilow.map not))
  if nremove < min_split_prop then (false, none)
  else
    let r0 := 2 * |n1 - n2| / (n1 + n2)
    if cc > max_split_corr ∧ r0 < min_amp_sim then (false, none)
    else if nremove > min_split_prop ∧ min plow phigh > aucsplit then
      (true, some (ilow.map (fun b => if b then (0 : ℤ) else 1)))
    else (false, none)

/-- Embedding of `ks_bimodal_pursuit_split`: the minimum-size bail, the
concrete initialization of the two variance estimates from the initial 1D
projections (`x[x > x_mean].var()` and `x[x < x_mean].var()`), the guarded
pursuit loop, then the verdict.  Reaching the post-loop code with `rs`
never assigned is a Python `NameError`, modelled as `.error`. -/
def ks_bimodal_pursuit_split (O : KsOracles) (in_unit : List ℕ)
    (min_size_split : ℕ) (min_split_prop aucsplit max_split_corr min_amp_sim : ℚ) :
    Except String (Bool × Option (List ℤ) × Option (List ℕ)) :=
  if in_unit.length < min_size_split then .ok (false, none, none)
  else
    let x := O.feats in_unit
    let x_mean := meanQ x
    let s1 := varQ (x.filter (fun v => decide (x_mean < v)))
    let s2 := varQ (x.filter (fun v => decide (v < x_mean)))
    let stf := pursuit_loop O 50 ⟨s1, s2, none⟩
    match stf.rs with
    | none => .error ("NameError: name rs is not defined")
    | some r =>
      let rec3 := O.recon r
      let verdict := ks_split_verdict min_split_prop aucsplit max_split_corr
        min_amp_sim r.ilow r.plow r.phigh rec3.1 rec3.2.1 rec3.2.2
      .ok (verdict.1, verdict.2, if verdict.1 then some in_unit else none)

/-- Embedding of `herding_split`: the minimum-size bail, then the
template/PCA/HDBSCAN body as an opaque oracle. -/
def herding_split (body : List ℕ → Bool × Option (List ℤ) × Option (List ℕ))
    (in_unit : List ℕ) (min_size_split : ℕ) :
    Bool × Option (List ℤ) × Option (List ℕ) :=
  if in_unit.length < min_size_split then (false, none, none)
  else body in_unit

/-- Embedding of `maxchan_lda_split`: the minimum-size bail and the
distinct-max-channel bail, then the LDA/isocut body as an opaque oracle. -/
def maxchan_lda_split (max_channels : List ℕ)
    (body : List ℕ → Bool × Option (List ℤ) × Option (List ℕ))
    (in_unit : List ℕ) (min_size_split : ℕ) :
    Bool × Option (List ℤ) × Option (List ℕ) :=
  if in_unit.length < min_size_split then (false, none, none)
  else if ((in_unit.map (fun j => max_channels.getD j 0)).dedup).length ≤ 1 then
    (false, none, none)
  else body in_unit

/-- Bundled minimum-size bail property of the three split tests, for every
possible content of their numeric bodies. -/
def MinSizeGuardSpec (in_unit : List ℕ) (m : ℕ) : Prop :=
  (∀ body, herding_split body in_unit m = (false, none, none)) ∧
  (∀ max_channels body,
    maxchan_lda_split max_channels body in_unit m = (false, none, none)) ∧
  (∀ O msp auc msc mas,
    ks_bimodal_pursuit_split O in_unit m msp auc msc mas = .ok (false, none, none))

/-- Claim C9: every split test returns `(False, None, None)` immediately
when the member set is smaller than its `min_size_split`, regardless of
feature content. -/
theorem split_tests_min_size_guard (in_unit : List ℕ) (m : ℕ)
    (h : in_unit.length < m) : MinSizeGuardSpec in_unit m := by
  refine ⟨?_, ?_, ?_⟩ <;> intros <;>
    simp [herding_split, maxchan_lda_split, ks_bimodal_pursuit_split, h]

/-- Witness for C9: a ten-member cluster against the default threshold 25. -/
theorem split_tests_min_size_guard_witness :
    MinSizeGuardSpec [0, 1, 2, 3, 4, 5, 6, 7, 8, 9] 25 :=
  split_tests_min_size_guard [0, 1, 2, 3, 4, 5, 6, 7, 8, 9] 25 (by decide)

/-- Claim C7: the pursuit verdict reports a split exactly when the smaller
components fraction exceeds `min_split_prop`, both mean confidences exceed
`aucsplit`, and the similarity guard does not fire; and a reported split is
two-way (labels `0` and `1` over the members). -/
theorem ks_verdict_guards (msp auc msc mas : ℚ) (ilow : List Bool)
    (plow phigh cc n1 n2 : ℚ) :
    ((ks_split_verdict msp auc msc mas ilow plow phigh cc n1 n2).1 = true ↔
      (min (fracTrue ilow) (fracTrue (ilow.map not)) > msp ∧
        min plow phigh > auc ∧
        ¬ (cc > msc ∧ 2 * |n1 - n2| / (n1 + n2) < mas))) ∧
    ((ks_split_verdict msp auc msc mas ilow plow phigh cc n1 n2).1 = true →
      (ks_split_verdict msp auc msc mas ilow plow phigh cc n1 n2).2 =
        some (ilow.map (fun b => if b then (0 : ℤ) else 1))) := by
  unfold ks_split_verdict
  dsimp only
  split_ifs with h1 h2 h3
  · refine ⟨?_, ?_⟩
    · simp only [false_iff]
      rintro ⟨ha, -, -⟩
      exact absurd h1 (not_lt.2 ha.le)
    · intro h; cases h
  · refine ⟨?_, ?_⟩
    · simp only [false_iff]
      rintro ⟨-, -, hg⟩
      exact hg h2
    · intro h; cases h
  · exact ⟨by simp only [true_iff]; exact ⟨h3.1, h3.2, h2⟩, fun _ => rfl⟩
  · refine ⟨?_, ?_⟩
    · simp only [false_iff]
      rintro ⟨ha, hb, -⟩
      exact h3 ⟨ha, hb⟩
    · intro h; cases h

/-- Concrete oracle set under which the initial variance estimates of the
pursuit collapse: the fifty initial projections are twenty-five zeros and
twenty-five ones, so each side of the mean is constant and both initial
variances are exactly zero. -/
def ks_collapse_oracles : KsOracles where
  feats := fun _ => List.replicate 25 (0 : ℚ) ++ List.replicate 25 (1 : ℚ)
  em := fun _ _ _ => ⟨1, 1, [], 1, 1⟩
  upd := fun _ _ => (1, 1)
  recon := fun _ => (0, 1, 1)

theorem pursuit_loop_entry_collapse (O : KsOracles) (n : ℕ) (st : PursuitState)
    (hcol : min st.s1 st.s2 < eps6) : pursuit_loop O n st = st := by
  cases n with
  | zero => rfl
  | succ n => simp [pursuit_loop, pursuit_iter, hcol]

theorem ks_pursuit_entry_collapse (O : KsOracles) (in_unit : List ℕ)
    (m : ℕ) (msp auc msc mas : ℚ) (hsize : ¬ in_unit.length < m)
    (hcol : min
      (varQ ((O.feats in_unit).filter (fun v => decide (meanQ (O.feats in_unit) < v))))
      (varQ ((O.feats in_unit).filter (fun v => decide (v < meanQ (O.feats in_unit)))))
      < eps6) :
    ks_bimodal_pursuit_split O in_unit m msp auc msc mas =
      .error ("NameError: name rs is not defined") := by
  unfold ks_bimodal_pursuit_split
  rw [if_neg hsize]
  dsimp only
  rw [pursuit_loop_entry_collapse O 50
    ⟨varQ ((O.feats in_unit).filter (fun v => decide (meanQ (O.feats in_unit) < v))),
      varQ ((O.feats in_unit).filter (fun v => decide (v < meanQ (O.feats in_unit)))),
      none⟩ hcol]

/-- Claim C8 (code bug): a variance collapse at the very first pursuit
iteration makes the source `break` before `rs` is ever assigned, and the
subsequent read of `rs` (line 337) is a fatal `NameError` instead of the
early-terminate-and-continue behavior the specification describes.  The
embedding run on the failing input (a fifty-member cluster whose initial
projections are twenty-five zeros and twenty-five ones) returns the error. -/
theorem ks_bimodal_first_iteration_variance_collapse :
    ks_bimodal_pursuit_split ks_collapse_oracles (List.range 50) 50 (1 / 20)
      (17 / 20) (9 / 10) (1 / 5) = .error ("NameError: name rs is not defined") := by
  refine ks_pursuit_entry_collapse ks_collapse_oracles (List.range 50) 50
    (1 / 20) (17 / 20) (9 / 10) (1 / 5) (by simp) ?_
  have h1 : meanQ (ks_collapse_oracles.feats (List.range 50)) = 1 / 2 := by
    norm_num [ks_collapse_oracles, meanQ]
  rw [h1]
  have h2 : (ks_collapse_oracles.feats (List.range 50)).filter
      (fun v => decide ((1 : ℚ) / 2 < v)) = List.replicate 25 1 := by
    norm_num [ks_collapse_oracles, List.filter_append, List.filter_replicate]
  have h3 : (ks_collapse_oracles.feats (List.range 50)).filter
      (fun v => decide (v < (1 : ℚ) / 2)) = List.replicate 25 0 := by
    norm_num [ks_collapse_oracles, List.filter_append, List.filter_replicate]
  rw [h2, h3]
  norm_num [varQ, meanQ, List.map_replicate, eps6]

/-! ### Merge scheduler (claims C1, C3, C5, C6, C10) -/

/-- Representative multi-channel waveform of a cluster (time-major rows). -/
abbrev Template := List (List ℚ)

/-- Self-energy `np.square(t).sum()` of a template. -/
def template_energy (t : Template) : ℚ :=
  (t.map (fun row => (row.map (fun v => v * v)).sum)).sum

/-- Lookup in the template dictionary (`templates_dict[k]`). -/
def dict_get (d : List (ℤ × Template)) (k : ℤ) : Option Template :=
  (d.find? (fun p => decide (p.1 = k))).map Prod.snd

/-- Total lookup used where the source indexes an existing key. -/
def dict_getD (d : List (ℤ × Template)) (k : ℤ) : Template :=
  (dict_get d k).getD []

/-- Removal of a key (`del templates_dict[k]`). -/
def dict_del (d : List (ℤ × Template)) (k : ℤ) : List (ℤ × Template) :=
  d.filter (fun p => decide (p.1 ≠ k))

/-- Update of a key (`templates_dict[k] = v`). -/
def dict_set (d : List (ℤ × Template)) (k : ℤ) (v : Template) : List (ℤ × Template) :=
  dict_del d k ++ [(k, v)]

/-- Mutable state of one `merge_clusters` invocation. -/
structure MergeState where
  new_labels : List ℤ
  aligned_times : List ℤ
  templates_dict : List (ℤ × Template)
  worklist : List ℤ

/-- External collaborators of the merge scheduler: `calc_resid_matrix`
(returning one residual norm and one integer shift per candidate),
`lda_diptest_merge` as the statistical merge oracle, and
`get_raw_template_single` for template re-estimation. -/
structure MergeOracles where
  resid : ℤ → List ℤ → List (ℤ × Template) → ℚ → List ℚ × List ℤ
  is_merge : List ℕ → List ℕ → Template → Template → ℤ → Bool
  raw_template : List ℤ → Template

/-- Minimum of a nonempty list modelling `arr.min()`, with an explicit
fallback for the (source-crashing) empty case. -/
def minHead (l : List ℚ) (d : ℚ) : ℚ :=
  match l with
  | [] => d
  | e :: es => es.foldr min e

theorem foldr_min_le_seed (l : List ℚ) (a : ℚ) : l.foldr min a ≤ a := by
  induction l with
  | nil => exact le_rfl
  | cons b t ih => exact le_trans (min_le_right b (t.foldr min a)) ih

theorem foldr_min_le_mem {l : List ℚ} {v : ℚ} (a : ℚ) (h : v ∈ l) :
    l.foldr min a ≤ v := by
  induction l with
  | nil => cases h
  | cons b t ih =>
    rcases List.mem_cons.1 h with rfl | h'
    · exact min_le_left _ _
    · exact le_trans (min_le_right _ _) (ih h')

theorem foldr_min_mem_or (l : List ℚ) (a : ℚ) :
    l.foldr min a = a ∨ l.foldr min a ∈ l := by
  induction l with
  | nil => exact Or.inl rfl
  | cons b t ih =>
    rcases min_choice b (t.foldr min a) with hc | hc
    · exact Or.inr (by rw [List.foldr_cons, hc]; exact List.mem_cons_self b t)
    · rw [List.foldr_cons, hc]
      rcases ih with h | h
      · exact Or.inl h
      · exact Or.inr (List.mem_cons_of_mem b h)

theorem minHead_le {l : List ℚ} {d : ℚ} : ∀ v ∈ l, minHead l d ≤ v := by
  intro v hv
  cases l with
  | nil => cases hv
  | cons e es =>
    rcases List.mem_cons.1 hv with rfl | hv'
    · exact foldr_min_le_seed es v
    · exact foldr_min_le_mem e hv'

theorem minHead_mem {l : List ℚ} {d : ℚ} (h : l ≠ []) : minHead l d ∈ l := by
  cases l with
  | nil => exact absurd rfl h
  | cons e es =>
    rcases foldr_min_mem_or es e with hc | hc
    · have he : minHead (e :: es) d = e := hc
      rw [he]
      exact List.mem_cons_self e es
    · exact List.mem_cons_of_mem e hc

/-- Distance threshold handed to the residual oracle (source lines
578-581): `0.9` times the minimum of the query templates self-energy and
the smallest candidate self-energy. -/
def deconv_threshold (unit : ℤ) (other_units : List ℤ)
    (templates_dict : List (ℤ × Template)) : ℚ :=
  let e_unit := template_energy (dict_getD templates_dict unit)
  let other_energies := other_units.map (fun j => template_energy (dict_getD templates_dict j))
  (9 / 10) * min e_unit (minHead other_energies e_unit)

/-- Candidate proposal core of `get_proposed_pairs_for_unit` (source lines
567-614): call the residual oracle with the derived threshold, keep only
candidates whose residual is below `max_resid_dist`, and stable-sort the
survivors by ascending residual.  Each triple is
`(candidate id, residual, shift)`. -/
def get_proposed_triples (O : MergeOracles) (unit : ℤ) (other_units : List ℤ)
    (templates_dict : List (ℤ × Template)) (max_resid_dist : ℚ) :
    List (ℤ × ℚ × ℤ) :=
  let thr := deconv_threshold unit other_units templates_dict
  let rs := O.resid unit other_units templates_dict thr
  let zipped := other_units.zip (rs.1.zip rs.2)
  let qualified := zipped.filter (fun t => decide (t.2.1 < max_resid_dist))
  List.insertionSort (fun a b => a.2.1 ≤ b.2.1) qualified

/-- Returned shape of `get_proposed_pairs_for_unit`: the sorted candidate
ids together with their integer shifts. -/
def get_proposed_pairs_for_unit (O : MergeOracles) (unit : ℤ)
    (other_units : List ℤ) (templates_dict : List (ℤ × Template))
    (max_resid_dist : ℚ) : List ℤ × List ℤ :=
  let trips := get_proposed_triples O unit other_units templates_dict max_resid_dist
  (trips.map (fun t => t.1), trips.map (fun t => t.2.2))

/-- One call of the statistical merge oracle on a proposed candidate, with
the member snapshot `in_candidate` recomputed from the current labels as in
the source loop (line 681). -/
def test_candidate (O : MergeOracles) (st : MergeState) (in_label : List ℕ)
    (label : ℤ) (t : ℤ × ℚ × ℤ) : Bool :=
  O.is_merge in_label (flatnonzero_eq st.new_labels t.1)
    (dict_getD st.templates_dict label) (dict_getD st.templates_dict t.1) t.2.2

/-- The `for candidate, shift in zip(proposals, shifts)` loop: first
accepted candidate wins, `none` when the list is exhausted. -/
def find_first_accept (O : MergeOracles) (st : MergeState) (in_label : List ℕ)
    (label : ℤ) : List (ℤ × ℚ × ℤ) → Option (ℤ × ℤ)
  | [] => none
  | t :: rest =>
    if test_candidate O st in_label label t then some (t.1, t.2.2)
    else find_first_accept O st in_label label rest

/-- State update of an accepted merge (source lines 696-729): shift the
candidate members timestamps, relabel them to `label`, drop the candidate
from worklist and dictionary, re-estimate the `label` template from the
updated member times, and re-queue `label` when recursion is enabled. -/
def merge_commit (O : MergeOracles) (st : MergeState) (label : ℤ)
    (rest : List ℤ) (candidate shift : ℤ) (recursive : Bool) : MergeState :=
  let aligned' := List.zipWith
    (fun v t => if v = candidate then t + shift else t) st.new_labels st.aligned_times
  let labels' := st.new_labels.map (fun v => if v = candidate then label else v)
  let worklist' := rest.erase candidate ++ (if recursive then [label] else [])
  let dict' := dict_del st.templates_dict candidate
  let new_template := O.raw_template
    ((labels'.zip aligned').filterMap (fun p => if p.1 = label then some p.2 else none))
  ⟨labels', aligned', dict_set dict' label new_template, worklist'⟩

/-- One iteration of the merge worklist loop (source lines 659-733): pop
the last (highest-quality) id, rank candidates from the still-pending ids,
commit the first accepted merge or drop the id. -/
def merge_step (O : MergeOracles) (recursive : Bool) (max_resid_dist : ℚ)
    (st : MergeState) : MergeState :=
  match st.worklist.getLast? with
  | none => st
  | some label =>
    let rest := st.worklist.dropLast
    let in_label := flatnonzero_eq st.new_labels label
    let trips := get_proposed_triples O label rest st.templates_dict max_resid_dist
    match find_first_accept O st in_label label trips with
    | none => { st with worklist := rest }
    | some cs => merge_commit O st label rest cs.1 cs.2 recursive

/-- The `while len(labels_to_process) > 1` loop, fuel-bounded. -/
def merge_loop (O : MergeOracles) (recursive : Bool) (max_resid_dist : ℚ) :
    ℕ → MergeState → MergeState
  | 0, st => st
  | Nat.succ fuel, st =>
    if st.worklist.length ≤ 1 then st
    else merge_loop O recursive max_resid_dist fuel (merge_step O recursive max_resid_dist st)

/-- Stable ascending argsort (`np.argsort`). -/
def argsortQ (s : List ℚ) : List ℕ :=
  List.insertionSort (fun i j => s.getD i 0 ≤ s.getD j 0) (List.range s.length)

/-- Top level of `merge_clusters`: the entry assert
`labels.max() + 1 == orig_labels.size == templates.shape[0]` (modelled as
`none` on failure), the initial worklist ordered by ascending quality
score, then the loop.  The quality scores `snrs` are taken as an input
because the source computes them as `templates.ptp(1).max(1) * sqrt(counts)`
in floating point. -/
def merge_clusters (O : MergeOracles) (fuel : ℕ) (labels : List ℤ)
    (templates : List Template) (snrs : List ℚ) (spike_times : List ℤ)
    (proposal_max_resid_dist : ℚ) (recursive : Bool) :
    Option (List ℤ × List ℤ) :=
  if maxN1 labels + 1 = (n_nonneg_values labels : ℤ) ∧
      n_nonneg_values labels = templates.length then
    let templates_dict := (List.range templates.length).map
      (fun i => (Int.ofNat i, templates.getD i []))
    let labels_to_process := (argsortQ snrs).map Int.ofNat
    let stf := merge_loop O recursive proposal_max_resid_dist fuel
      ⟨labels, spike_times, templates_dict, labels_to_process⟩
    some (stf.aligned_times, stf.new_labels)
  else none

instance : IsTotal (ℤ × ℚ × ℤ) (fun a b => a.2.1 ≤ b.2.1) :=
  ⟨fun _ _ => le_total _ _⟩

instance : IsTrans (ℤ × ℚ × ℤ) (fun a b => a.2.1 ≤ b.2.1) :=
  ⟨fun _ _ _ hab hbc => le_trans hab hbc⟩

/-- Bundled contract of the merge candidate proposer: the threshold handed
to the residual oracle is 90% of the smallest self-energy among the query
and all candidate templates, the returned triples are a permutation of
exactly the candidates whose residual is below `max_resid_dist`, they are
sorted by ascending residual, the result is empty exactly when no candidate
qualifies, and the function returns their ids and shifts in that order. -/
def ProposedPairsSpec (O : MergeOracles) (unit : ℤ) (other_units : List ℤ)
    (templates_dict : List (ℤ × Template)) (max_resid_dist : ℚ) : Prop :=
  let e := fun j => template_energy (dict_getD templates_dict j)
  let thr := deconv_threshold unit other_units templates_dict
  let rs := O.resid unit other_units templates_dict thr
  let zipped := other_units.zip (rs.1.zip rs.2)
  let trips := get_proposed_triples O unit other_units templates_dict max_resid_dist
  ((∀ j ∈ unit :: other_units, thr ≤ (9 / 10) * e j) ∧
    (∃ j ∈ unit :: other_units, thr = (9 / 10) * e j)) ∧
  trips.Perm (zipped.filter (fun t => decide (t.2.1 < max_resid_dist))) ∧
  (trips.map (fun t => t.2.1)).Sorted (· ≤ ·) ∧
  (trips = [] ↔ ∀ t ∈ zipped, ¬ t.2.1 < max_resid_dist) ∧
  get_proposed_pairs_for_unit O unit other_units templates_dict max_resid_dist =
    (trips.map (fun t => t.1), trips.map (fun t => t.2.2))

/-- Claim C6: contract of `get_proposed_pairs_for_unit`. -/
theorem get_proposed_pairs_spec (O : MergeOracles) (unit : ℤ)
    (other_units : List ℤ) (templates_dict : List (ℤ × Template))
    (max_resid_dist : ℚ) :
    ProposedPairsSpec O unit other_units templates_dict max_resid_dist := by
  unfold ProposedPairsSpec
  dsimp only
  refine ⟨⟨?_, ?_⟩, ?_, ?_, ?_, rfl⟩
  · intro j hj
    unfold deconv_threshold
    dsimp only
    refine mul_le_mul_of_nonneg_left ?_ (by norm_num)
    rcases List.mem_cons.1 hj with rfl | hj'
    · exact min_le_left _ _
    · refine le_trans (min_le_right _ _) (minHead_le _ ?_)
      exact List.mem_map_of_mem _ hj'
  · unfold deconv_threshold
    dsimp only
    rcases min_choice (template_energy (dict_getD templates_dict unit))
      (minHead (other_units.map fun j => template_energy (dict_getD templates_dict j))
        (template_energy (dict_getD templates_dict unit))) with hc | hc
    · exact ⟨unit, List.mem_cons_self _ _, by rw [hc]⟩
    · by_cases hnil : other_units = []
      · subst hnil
        refine ⟨unit, List.mem_cons_self _ _, ?_⟩
        simp [minHead, min_self]
      · have hne : other_units.map (fun j => template_energy (dict_getD templates_dict j)) ≠ [] := by
          simpa using hnil
        have hmem := minHead_mem (l := other_units.map fun j => template_energy (dict_getD templates_dict j))
          (d := template_energy (dict_getD templates_dict unit)) hne
        obtain ⟨j, hjm, hje⟩ := List.mem_map.1 hmem
        refine ⟨j, List.mem_cons_of_mem _ hjm, ?_⟩
        rw [hc, hje]
  · unfold get_proposed_triples
    dsimp only
    exact List.perm_insertionSort _ _
  · unfold get_proposed_triples
    dsimp only
    refine List.Pairwise.map _ (fun a b h => h) ?_
    exact List.sorted_insertionSort (fun a b : ℤ × ℚ × ℤ => a.2.1 ≤ b.2.1) _
  · unfold get_proposed_triples
    dsimp only
    constructor
    · intro h t ht
      have hperm := List.perm_insertionSort (fun a b : ℤ × ℚ × ℤ => a.2.1 ≤ b.2.1)
        ((other_units.zip ((O.resid unit other_units templates_dict
          (deconv_threshold unit other_units templates_dict)).1.zip
          (O.resid unit other_units templates_dict
            (deconv_threshold unit other_units templates_dict)).2)).filter
            (fun t => decide (t.2.1 < max_resid_dist)))
      rw [h] at hperm
      have hnil := hperm.symm.eq_nil
      rw [List.filter_eq_nil_iff] at hnil
      intro hlt
      exact absurd (by simpa using hlt) (by simpa using hnil t ht)
    · intro h
      have hnil : (other_units.zip ((O.resid unit other_units templates_dict
          (deconv_threshold unit other_units templates_dict)).1.zip
          (O.resid unit other_units templates_dict
            (deconv_threshold unit other_units templates_dict)).2)).filter
            (fun t => decide (t.2.1 < max_resid_dist)) = [] := by
        rw [List.filter_eq_nil_iff]
        intro t ht
        simpa using h t ht
      rw [hnil]
      rfl

theorem dict_get_eq_none {d : List (ℤ × Template)} {k : ℤ}
    (h : ∀ p ∈ d, p.1 ≠ k) : dict_get d k = none := by
  unfold dict_get
  rw [List.find?_eq_none.2 (by intro p hp; simpa using h p hp)]
  rfl

theorem mem_dict_del {d : List (ℤ × Template)} {k : ℤ} {p : ℤ × Template}
    (h : p ∈ dict_del d k) : p ∈ d ∧ p.1 ≠ k := by
  have := List.mem_filter.1 h
  exact ⟨this.1, by simpa using this.2⟩

theorem mem_dict_set {d : List (ℤ × Template)} {k : ℤ} {v : Template}
    {p : ℤ × Template} (h : p ∈ dict_set d k v) :
    (p ∈ d ∧ p.1 ≠ k) ∨ p = (k, v) := by
  rcases List.mem_append.1 h with h' | h'
  · exact Or.inl (mem_dict_del h')
  · exact Or.inr (by simpa using h')

theorem dict_get_set_self (d : List (ℤ × Template)) (k : ℤ) (v : Template) :
    dict_get (dict_set d k v) k = some v := by
  unfold dict_set dict_get
  rw [List.find?_append]
  have h1 : (dict_del d k).find? (fun p => decide (p.1 = k)) = none := by
    refine List.find?_eq_none.2 ?_
    intro p hp
    simpa using (mem_dict_del hp).2
  rw [h1]
  simp

/-- Relabelling every member of `candidate` to an already-live `label`
removes exactly `candidate` from the set of live ids. -/
theorem nonnegSet_relabel {l : List ℤ} {candidate label : ℤ}
    (hlive_l : label ∈ l) (hne : candidate ≠ label) :
    nonnegSet (l.map (fun v => if v = candidate then label else v)) =
      (nonnegSet l).erase candidate := by
  ext w
  simp only [Finset.mem_erase, mem_nonnegSet, List.mem_map]
  constructor
  · rintro ⟨⟨v, hv, hfv⟩, hw0⟩
    by_cases hvc : v = candidate
    · rw [if_pos hvc] at hfv
      subst hfv
      exact ⟨fun hc => hne hc.symm, hlive_l, hw0⟩
    · rw [if_neg hvc] at hfv
      subst hfv
      exact ⟨hvc, hv, hw0⟩
  · rintro ⟨hwc, hw, hw0⟩
    exact ⟨⟨w, hw, by rw [if_neg hwc]⟩, hw0⟩

/-- Bundled effect of one accepted merge commit: the live cluster count
drops by exactly one, the absorbed ids template is gone from the
dictionary, and the absorbed id is gone from the worklist. -/
def MergeCommitSpec (O : MergeOracles) (st : MergeState) (label : ℤ)
    (rest : List ℤ) (candidate shift : ℤ) (recursive : Bool) : Prop :=
  let st' := merge_commit O st label rest candidate shift recursive
  (nonnegSet st'.new_labels).card + 1 = (nonnegSet st.new_labels).card ∧
  dict_get st'.templates_dict candidate = none ∧
  candidate ∉ st'.worklist

/-- Claim C3: every accepted merge commit strictly reduces the number of
live cluster ids by exactly one and removes the absorbed candidate from
the template dictionary and the worklist, under the scheduler invariants
(both ids live and distinct, duplicate-free worklist). -/
theorem merge_commit_spec (O : MergeOracles) (st : MergeState) (label : ℤ)
    (rest : List ℤ) (candidate shift : ℤ) (recursive : Bool)
    (hcand : 0 ≤ candidate) (hne : candidate ≠ label)
    (hlive_l : label ∈ st.new_labels) (hlive_c : candidate ∈ st.new_labels)
    (hrest : rest.Nodup) :
    MergeCommitSpec O st label rest candidate shift recursive := by
  unfold MergeCommitSpec merge_commit
  dsimp only
  refine ⟨?_, ?_, ?_⟩
  · rw [nonnegSet_relabel hlive_l hne]
    have hmem : candidate ∈ nonnegSet st.new_labels := mem_nonnegSet.2 ⟨hlive_c, hcand⟩
    have hpos : 0 < (nonnegSet st.new_labels).card := Finset.card_pos.2 ⟨candidate, hmem⟩
    rw [Finset.card_erase_of_mem hmem]
    omega
  · refine dict_get_eq_none ?_
    intro p hp
    rcases mem_dict_set hp with ⟨hpd, _⟩ | rfl
    · exact (mem_dict_del hpd).2
    · exact fun hc => hne hc.symm
  · intro hc
    rcases List.mem_append.1 hc with h | h
    · exact ((List.Nodup.mem_erase_iff hrest).1 h).1 rfl
    · cases recursive with
      | false => simp at h
      | true =>
        simp at h
        exact hne h

/-- Concrete oracle set for the merge witnesses. -/
def demo_merge_oracles : MergeOracles where
  resid := fun _ _ _ _ => ([], [])
  is_merge := fun _ _ _ _ _ => false
  raw_template := fun _ => []

/-- Witness for C3: absorbing cluster `1` into cluster `0` in a
three-event state. -/
theorem merge_commit_spec_witness :
    MergeCommitSpec demo_merge_oracles
      ⟨[0, 1, 1], [5, 6, 7], [(0, []), (1, [])], [0, 1]⟩ 0 [1] 1 2 true :=
  merge_commit_spec demo_merge_oracles
    ⟨[0, 1, 1], [5, 6, 7], [(0, []), (1, [])], [0, 1]⟩ 0 [1] 1 2 true
    (by decide) (by decide) (by decide) (by decide) (by decide)

/-! ### One iteration of the merge scheduler (claim C5) -/

theorem find_first_accept_iff (O : MergeOracles) (st : MergeState)
    (in_label : List ℕ) (label : ℤ) (trips : List (ℤ × ℚ × ℤ)) (c s : ℤ) :
    find_first_accept O st in_label label trips = some (c, s) ↔
      ∃ k, k < trips.length ∧
        (trips.getD k (0, 0, 0)).1 = c ∧ (trips.getD k (0, 0, 0)).2.2 = s ∧
        test_candidate O st in_label label (trips.getD k (0, 0, 0)) = true ∧
        ∀ j, j < k →
          test_candidate O st in_label label (trips.getD j (0, 0, 0)) = false := by
  induction trips with
  | nil => simp [find_first_accept]
  | cons t rest ih =>
    unfold find_first_accept
    by_cases ht : test_candidate O st in_label label t = true
    · rw [if_pos ht]
      constructor
      · intro h
        have h' : (t.1, t.2.2) = (c, s) := Option.some.inj h
        refine ⟨0, by simp, ?_, ?_, by simpa using ht, by omega⟩
        · simpa using congrArg Prod.fst h'
        · simpa using congrArg Prod.snd h'
      · rintro ⟨k, hk, h1, h2, h3, h4⟩
        cases k with
        | zero =>
          simp only [List.getD_cons_zero] at h1 h2
          rw [← h1, ← h2]
        | succ k =>
          have h0 := h4 0 (Nat.succ_pos k)
          simp only [List.getD_cons_zero] at h0
          rw [ht] at h0
          cases h0
    · rw [if_neg ht]
      rw [ih]
      constructor
      · rintro ⟨k, hk, h1, h2, h3, h4⟩
        refine ⟨k + 1, by simpa using Nat.succ_lt_succ hk,
          by simpa using h1, by simpa using h2, by simpa using h3, ?_⟩
        intro j hj
        cases j with
        | zero => simpa using Bool.eq_false_iff.2 (fun hc => ht hc)
        | succ j =>
          have := h4 j (by omega)
          simpa using this
      · rintro ⟨k, hk, h1, h2, h3, h4⟩
        cases k with
        | zero =>
          simp only [List.getD_cons_zero] at h3
          exact absurd h3 ht
        | succ k =>
          refine ⟨k, by simpa using hk, by simpa using h1, by simpa using h2,
            by simpa using h3, ?_⟩
          intro j hj
          have := h4 (j + 1) (by omega)
          simpa using this

theorem fst_mem_of_mem_triples {O : MergeOracles} {unit : ℤ}
    {other_units : List ℤ} {templates_dict : List (ℤ × Template)} {maxd : ℚ}
    {t : ℤ × ℚ × ℤ}
    (h : t ∈ get_proposed_triples O unit other_units templates_dict maxd) :
    t.1 ∈ other_units := by
  unfold get_proposed_triples at h
  have h1 := (List.perm_insertionSort _ _).mem_iff.1 h
  have h2 := List.mem_of_mem_filter h1
  exact (List.of_mem_zip h2).1

theorem merge_step_not_mem {O : MergeOracles} {recursive : Bool} {maxd : ℚ}
    {st : MergeState} {x : ℤ} (h : x ∉ st.worklist) :
    x ∉ (merge_step O recursive maxd st).worklist := by
  unfold merge_step
  cases hlast : st.worklist.getLast? with
  | none => exact h
  | some label =>
    have hlmem : label ∈ st.worklist := List.mem_of_mem_getLast? hlast
    have hrest : x ∉ st.worklist.dropLast := fun hc => h ((List.dropLast_sublist st.worklist).subset hc)
    dsimp only
    cases hffa : find_first_accept O st (flatnonzero_eq st.new_labels label) label
        (get_proposed_triples O label st.worklist.dropLast st.templates_dict maxd) with
    | none => exact hrest
    | some cs =>
      unfold merge_commit
      dsimp only
      intro hc
      rcases List.mem_append.1 hc with h' | h'
      · exact hrest (List.mem_of_mem_erase h')
      · cases recursive with
        | false => simp at h'
        | true =>
          simp at h'
          exact h (h' ▸ hlmem)

theorem merge_loop_not_mem {O : MergeOracles} {recursive : Bool} {maxd : ℚ}
    {x : ℤ} : ∀ (fuel : ℕ) (st : MergeState), x ∉ st.worklist →
      x ∉ (merge_loop O recursive maxd fuel st).worklist := by
  intro fuel
  induction fuel with
  | zero => exact fun st h => h
  | succ fuel ih =>
    intro st h
    unfold merge_loop
    by_cases hl : st.worklist.length ≤ 1
    · rw [if_pos hl]
      exact h
    · rw [if_neg hl]
      exact ih _ (merge_step_not_mem h)

theorem merge_commit_times_getD (O : MergeOracles) (st : MergeState)
    (label : ℤ) (rest : List ℤ) (candidate shift : ℤ) (recursive : Bool)
    (htlen : st.aligned_times.length = st.new_labels.length)
    (j : ℕ) (hj : j < st.new_labels.length) :
    (merge_commit O st label rest candidate shift recursive).aligned_times.getD j 0 =
      if st.new_labels.getD j 0 = candidate then st.aligned_times.getD j 0 + shift
      else st.aligned_times.getD j 0 := by
  unfold merge_commit
  dsimp only
  have hjz : j < (List.zipWith (fun v t => if v = candidate then t + shift else t)
      st.new_labels st.aligned_times).length := by
    rw [List.length_zipWith]
    omega
  rw [List.getD_eq_getElem _ 0 hjz, List.getElem_zipWith,
    List.getD_eq_getElem _ 0 hj, List.getD_eq_getElem _ 0 (by omega : j < st.aligned_times.length)]

theorem merge_commit_labels_getD (O : MergeOracles) (st : MergeState)
    (label : ℤ) (rest : List ℤ) (candidate shift : ℤ) (recursive : Bool)
    (j : ℕ) (hj : j < st.new_labels.length) :
    (merge_commit O st label rest candidate shift recursive).new_labels.getD j 0 =
      if st.new_labels.getD j 0 = candidate then label
      else st.new_labels.getD j 0 := by
  unfold merge_commit
  dsimp only
  have hjm : j < (st.new_labels.map (fun v => if v = candidate then label else v)).length := by
    rw [List.length_map]
    exact hj
  rw [List.getD_eq_getElem _ 0 hjm, List.getElem_map, List.getD_eq_getElem _ 0 hj]

/-- Bundled description of one iteration of the merge scheduler popping
`label` from a worklist `ws ++ [label]`: the popped id has maximal quality,
the ranked candidates are tested in ascending-residual order, the first
accepted candidate triggers exactly the commit described by the claim, and
an exhausted candidate list drops the id forever. -/
def MergeStepSpec (O : MergeOracles) (recursive : Bool) (maxd : ℚ)
    (st : MergeState) (ws : List ℤ) (label : ℤ) (q : ℤ → ℚ) : Prop :=
  let st' := merge_step O recursive maxd st
  let in_label := flatnonzero_eq st.new_labels label
  let trips := get_proposed_triples O label ws st.templates_dict maxd
  (∀ w ∈ st.worklist, q w ≤ q label) ∧
  (trips.map (fun t => t.2.1)).Sorted (· ≤ ·) ∧
  (∀ c s, find_first_accept O st in_label label trips = some (c, s) →
    (∃ k, k < trips.length ∧ (trips.getD k (0, 0, 0)).1 = c ∧
      (trips.getD k (0, 0, 0)).2.2 = s ∧
      test_candidate O st in_label label (trips.getD k (0, 0, 0)) = true ∧
      ∀ j, j < k →
        test_candidate O st in_label label (trips.getD j (0, 0, 0)) = false) ∧
    st' = merge_commit O st label ws c s recursive ∧
    (∀ j, j < st.new_labels.length →
      (st.new_labels.getD j 0 = c →
        st'.aligned_times.getD j 0 = st.aligned_times.getD j 0 + s ∧
        st'.new_labels.getD j 0 = label) ∧
      (st.new_labels.getD j 0 ≠ c →
        st'.aligned_times.getD j 0 = st.aligned_times.getD j 0 ∧
        st'.new_labels.getD j 0 = st.new_labels.getD j 0)) ∧
    c ∉ st'.worklist ∧
    dict_get st'.templates_dict c = none ∧
    dict_get st'.templates_dict label = some (O.raw_template
      ((st'.new_labels.zip st'.aligned_times).filterMap
        (fun p => if p.1 = label then some p.2 else none))) ∧
    (recursive = true → st'.worklist = ws.erase c ++ [label])) ∧
  (find_first_accept O st in_label label trips = none →
    st'.worklist = ws ∧
    ∀ fuel, label ∉ (merge_loop O recursive maxd fuel st').worklist)

/-- Claim C5: full description of one merge scheduler iteration, under the
scheduler invariants (the worklist ends with `label`, is duplicate-free and
quality-sorted, and the times array matches the labels array in length). -/
theorem merge_step_spec (O : MergeOracles) (recursive : Bool) (maxd : ℚ)
    (st : MergeState) (ws : List ℤ) (label : ℤ) (q : ℤ → ℚ)
    (hws : st.worklist = ws ++ [label]) (hnd : st.worklist.Nodup)
    (htlen : st.aligned_times.length = st.new_labels.length)
    (hq : ∀ w ∈ ws, q w ≤ q label) :
    MergeStepSpec O recursive maxd st ws label q := by
  have hndw : (ws ++ [label]).Nodup := hws ▸ hnd
  have hwsnd : ws.Nodup := (List.nodup_append.1 hndw).1
  have hlns : label ∉ ws := by
    intro hc
    exact (List.nodup_append.1 hndw).2.2 hc (List.mem_singleton_self label)
  have hlast : st.worklist.getLast? = some label := by
    rw [hws]
    simp
  have hdrop : st.worklist.dropLast = ws := by
    rw [hws]
    simp
  have hstep : merge_step O recursive maxd st =
      (match find_first_accept O st (flatnonzero_eq st.new_labels label) label
          (get_proposed_triples O label ws st.templates_dict maxd) with
        | none => { st with worklist := ws }
        | some cs => merge_commit O st label ws cs.1 cs.2 recursive) := by
    unfold merge_step
    rw [hlast]
    dsimp only
    rw [hdrop]
  unfold MergeStepSpec
  dsimp only
  refine ⟨?_, ?_, ?_, ?_⟩
  · intro w hw
    rw [hws] at hw
    rcases List.mem_append.1 hw with h | h
    · exact hq w h
    · rw [List.mem_singleton.1 h]
  · unfold get_proposed_triples
    dsimp only
    refine List.Pairwise.map _ (fun a b h => h) ?_
    exact List.sorted_insertionSort (fun a b : ℤ × ℚ × ℤ => a.2.1 ≤ b.2.1) _
  · intro c s h
    have hchar := (find_first_accept_iff O st _ label _ c s).1 h
    have hcmem : c ∈ ws := by
      obtain ⟨k, hk, h1, _, _, _⟩ := hchar
      have hkm : (get_proposed_triples O label ws st.templates_dict maxd).getD k (0, 0, 0)
          ∈ get_proposed_triples O label ws st.templates_dict maxd := by
        rw [List.getD_eq_getElem _ _ hk]
        exact List.getElem_mem hk
      have := fst_mem_of_mem_triples hkm
      rw [h1] at this
      exact this
    have hcne : c ≠ label := fun hc => hlns (hc ▸ hcmem)
    have hst' : merge_step O recursive maxd st = merge_commit O st label ws c s recursive := by
      rw [hstep, h]
    refine ⟨hchar, hst', ?_, ?_, ?_, ?_, ?_⟩
    · intro j hj
      rw [hst']
      constructor
      · intro hjc
        rw [merge_commit_times_getD O st label ws c s recursive htlen j hj,
          merge_commit_labels_getD O st label ws c s recursive j hj, if_pos hjc, if_pos hjc]
        exact ⟨rfl, rfl⟩
      · intro hjc
        rw [merge_commit_times_getD O st label ws c s recursive htlen j hj,
          merge_commit_labels_getD O st label ws c s recursive j hj, if_neg hjc, if_neg hjc]
        exact ⟨rfl, rfl⟩
    · rw [hst']
      unfold merge_commit
      dsimp only
      intro hc
      rcases List.mem_append.1 hc with h' | h'
      · exact ((List.Nodup.mem_erase_iff hwsnd).1 h').1 rfl
      · cases recursive with
        | false => simp at h'
        | true =>
          simp at h'
          exact hcne h'
    · rw [hst']
      unfold merge_commit
      dsimp only
      refine dict_get_eq_none ?_
      intro p hp
      rcases mem_dict_set hp with ⟨hpd, _⟩ | rfl
      · exact (mem_dict_del hpd).2
      · exact fun hc => hcne hc.symm
    · rw [hst']
      unfold merge_commit
      dsimp only
      exact dict_get_set_self _ _ _
    · intro hrec
      rw [hst']
      unfold merge_commit
      dsimp only
      rw [hrec]
      rfl
  · intro h
    have hst' : merge_step O recursive maxd st = { st with worklist := ws } := by
      rw [hstep, h]
    refine ⟨by rw [hst'], ?_⟩
    intro fuel
    refine merge_loop_not_mem fuel _ ?_
    rw [hst']
    exact hlns

/-- Witness for C5: a two-cluster state whose proposer returns no
candidates, exercising the exhaustion branch. -/
theorem merge_step_spec_witness :
    MergeStepSpec demo_merge_oracles true 5
      ⟨[0, 1], [0, 0], [(0, []), (1, [])], [0, 1]⟩ [0] 1 (fun _ => 0) :=
  merge_step_spec demo_merge_oracles true 5
    ⟨[0, 1], [0, 0], [(0, []), (1, [])], [0, 1]⟩ [0] 1 (fun _ => 0)
    (by decide) (by decide) (by decide) (by intro w hw; exact le_rfl)

/-! ### Invariants of the merge scheduler loop (claims C1 and C10) -/

theorem find_first_accept_mem {O : MergeOracles} {st : MergeState}
    {in_label : List ℕ} {label : ℤ} {trips : List (ℤ × ℚ × ℤ)} {c s : ℤ}
    (h : find_first_accept O st in_label label trips = some (c, s)) :
    ∃ t ∈ trips, t.1 = c ∧ t.2.2 = s := by
  obtain ⟨k, hk, h1, h2, _, _⟩ := (find_first_accept_iff O st in_label label trips c s).1 h
  refine ⟨trips.getD k (0, 0, 0), ?_, h1, h2⟩
  rw [List.getD_eq_getElem _ _ hk]
  exact List.getElem_mem hk

/-- One merge iteration either leaves the labels unchanged or relabels the
members of one non-negative candidate id to one non-negative id. -/
theorem merge_step_labels (O : MergeOracles) (recursive : Bool) (maxd : ℚ)
    (st : MergeState) (hwl : ∀ w ∈ st.worklist, 0 ≤ w) :
    (merge_step O recursive maxd st).new_labels = st.new_labels ∨
    ∃ candidate label : ℤ, 0 ≤ candidate ∧ 0 ≤ label ∧
      (merge_step O recursive maxd st).new_labels =
        st.new_labels.map (fun v => if v = candidate then label else v) := by
  unfold merge_step
  cases hlast : st.worklist.getLast? with
  | none => exact Or.inl rfl
  | some label =>
    dsimp only
    cases hffa : find_first_accept O st (flatnonzero_eq st.new_labels label) label
        (get_proposed_triples O label st.worklist.dropLast st.templates_dict maxd) with
    | none => exact Or.inl rfl
    | some cs =>
      right
      obtain ⟨t, htm, ht1, _⟩ := find_first_accept_mem (c := cs.1) (s := cs.2)
        (by rw [hffa])
      have hcw : cs.1 ∈ st.worklist := by
        rw [← ht1]
        exact (List.dropLast_sublist st.worklist).subset (fst_mem_of_mem_triples htm)
      refine ⟨cs.1, label, hwl _ hcw, hwl _ (List.mem_of_mem_getLast? hlast), ?_⟩
      unfold merge_commit
      rfl

theorem merge_step_worklist_nonneg (O : MergeOracles) (recursive : Bool)
    (maxd : ℚ) (st : MergeState) (hwl : ∀ w ∈ st.worklist, 0 ≤ w) :
    ∀ w ∈ (merge_step O recursive maxd st).worklist, 0 ≤ w := by
  unfold merge_step
  cases hlast : st.worklist.getLast? with
  | none => exact hwl
  | some label =>
    dsimp only
    cases hffa : find_first_accept O st (flatnonzero_eq st.new_labels label) label
        (get_proposed_triples O label st.worklist.dropLast st.templates_dict maxd) with
    | none =>
      intro w hw
      exact hwl w ((List.dropLast_sublist st.worklist).subset hw)
    | some cs =>
      unfold merge_commit
      dsimp only
      intro w hw
      rcases List.mem_append.1 hw with h | h
      · exact hwl w ((List.dropLast_sublist st.worklist).subset (List.mem_of_mem_erase h))
      · cases recursive with
        | false => simp at h
        | true =>
          simp at h
          exact h ▸ hwl label (List.mem_of_mem_getLast? hlast)

/-- Master invariant of the merge worklist loop: the label arrays length
is preserved, entries stay in `{-1} ∪ ℕ`, and triaged (`-1`) events keep
their `-1` label. -/
theorem merge_loop_invariant (O : MergeOracles) (recursive : Bool) (maxd : ℚ) :
    ∀ (fuel : ℕ) (st : MergeState),
    (∀ w ∈ st.worklist, 0 ≤ w) → (∀ v ∈ st.new_labels, -1 ≤ v) →
    (merge_loop O recursive maxd fuel st).new_labels.length = st.new_labels.length ∧
    (∀ v ∈ (merge_loop O recursive maxd fuel st).new_labels, -1 ≤ v) ∧
    (∀ j, j < st.new_labels.length → st.new_labels.getD j 0 = -1 →
      (merge_loop O recursive maxd fuel st).new_labels.getD j 0 = -1) := by
  intro fuel
  induction fuel with
  | zero => exact fun st _ hdom => ⟨rfl, hdom, fun _ _ h => h⟩
  | succ fuel ih =>
    intro st hwl hdom
    unfold merge_loop
    by_cases hl : st.worklist.length ≤ 1
    · rw [if_pos hl]
      exact ⟨rfl, hdom, fun _ _ h => h⟩
    · rw [if_neg hl]
      have hwl' := merge_step_worklist_nonneg O recursive maxd st hwl
      rcases merge_step_labels O recursive maxd st hwl with heq | ⟨c, lb, hc0, hl0, heq⟩
      · have := ih (merge_step O recursive maxd st) hwl' (by rw [heq]; exact hdom)
        rw [heq] at this
        exact this
      · have hdom' : ∀ v ∈ (merge_step O recursive maxd st).new_labels, -1 ≤ v := by
          rw [heq]
          intro v hv
          obtain ⟨w, hw, rfl⟩ := List.mem_map.1 hv
          by_cases hwc : w = c
          · rw [if_pos hwc]
            omega
          · rw [if_neg hwc]
            exact hdom w hw
        have hlen' : (merge_step O recursive maxd st).new_labels.length
            = st.new_labels.length := by
          rw [heq, List.length_map]
        have hpres' : ∀ j, j < st.new_labels.length → st.new_labels.getD j 0 = -1 →
            (merge_step O recursive maxd st).new_labels.getD j 0 = -1 := by
          intro j hj hj1
          rw [heq]
          have hjm : j < (st.new_labels.map (fun v => if v = c then lb else v)).length := by
            rw [List.length_map]
            exact hj
          rw [List.getD_eq_getElem _ 0 hjm, List.getElem_map,
            ← List.getD_eq_getElem st.new_labels 0 hj, hj1, if_neg (by omega)]
        have := ih (merge_step O recursive maxd st) hwl' hdom'
        refine ⟨by rw [this.1, hlen'], this.2.1, ?_⟩
        intro j hj hj1
        exact this.2.2 j (by rw [hlen']; exact hj) (hpres' j hj hj1)

/-- Bundled claim C10: events labelled `-1` on entry are still labelled
`-1` in the output of both a split run and a merge run. -/
def TriagePreservedSpec (fuelS : ℕ) (labelsS : List ℤ) (n_events : ℕ)
    (steps : List ((List ℕ → Option (List ℤ)) × Bool)) (O : MergeOracles)
    (fuelM : ℕ) (labelsM : List ℤ) (templates : List Template) (snrs : List ℚ)
    (times : List ℤ) (maxd : ℚ) (recursive : Bool) : Prop :=
  (∀ out, split_clusters fuelS labelsS n_events steps = .ok out →
    ∀ j, j < labelsS.length → labelsS.getD j 0 = -1 → out.getD j 0 = -1) ∧
  (∀ out, merge_clusters O fuelM labelsM templates snrs times maxd recursive = some out →
    ∀ j, j < labelsM.length → labelsM.getD j 0 = -1 → out.2.getD j 0 = -1)

/-- Claim C10: neither scheduler ever reassigns a triaged event, for label
arrays over `{-1} ∪ ℕ` and split tests that only use `-1` as a negative
sub-label (as the three tests of the source do). -/
theorem triage_preserved (fuelS : ℕ) (labelsS : List ℤ) (n_events : ℕ)
    (steps : List ((List ℕ → Option (List ℤ)) × Bool)) (O : MergeOracles)
    (fuelM : ℕ) (labelsM : List ℤ) (templates : List Template) (snrs : List ℚ)
    (times : List ℤ) (maxd : ℚ) (recursive : Bool)
    (hdomS : ∀ v ∈ labelsS, -1 ≤ v)
    (htests : ∀ st ∈ steps, ∀ u subs, st.1 u = some subs → ∀ s ∈ subs, -1 ≤ s)
    (hdomM : ∀ v ∈ labelsM, -1 ≤ v) :
    TriagePreservedSpec fuelS labelsS n_events steps O fuelM labelsM templates
      snrs times maxd recursive := by
  constructor
  · intro out hout j hj hj1
    unfold split_clusters at hout
    cases hch : split_clusters_checks labelsS n_events with
    | error e => rw [hch] at hout; cases hout
    | ok u =>
      rw [hch] at hout
      have hout' := Option.some.inj (congrArg Except.toOption hout)
      rw [← hout']
      exact (split_steps_invariant steps fuelS htests labelsS hdomS).2.2 j hj hj1
  · intro out hout j hj hj1
    unfold merge_clusters at hout
    by_cases hck : maxN1 labelsM + 1 = (n_nonneg_values labelsM : ℤ) ∧
        n_nonneg_values labelsM = templates.length
    · rw [if_pos hck] at hout
      have hout' := Option.some.inj hout
      have hinv := merge_loop_invariant O recursive maxd fuelM
        ⟨labelsM, times, (List.range templates.length).map
          (fun i => (Int.ofNat i, templates.getD i [])),
          (argsortQ snrs).map Int.ofNat⟩
        (by intro w hw; obtain ⟨i, -, rfl⟩ := List.mem_map.1 hw; exact Int.ofNat_nonneg i)
        hdomM
      rw [← hout']
      exact hinv.2.2 j hj hj1
    · rw [if_neg hck] at hout
      cases hout

/-- Witness for C10 at concrete inputs: a split run with one no-op step and
a merge run with no accepted proposals, each holding a triaged event. -/
theorem triage_preserved_witness :
    TriagePreservedSpec 4 [0, -1, 1] 3 [(fun _ => none, false)] demo_merge_oracles
      3 [0, 1, -1] [[], []] [0, 1] [0, 0, 0] 5 true :=
  triage_preserved 4 [0, -1, 1] 3 [(fun _ => none, false)] demo_merge_oracles
    3 [0, 1, -1] [[], []] [0, 1] [0, 0, 0] 5 true
    (by decide)
    (by
      rintro st hst u subs hsubs
      rw [List.mem_singleton] at hst
      subst hst
      exact Option.noConfusion hsubs)
    (by decide)

/-! ### Label compaction (claim C1) -/

/-- Oracle set driving the compaction counterexample: the residual oracle
ranks candidate `1` closest when two candidates remain and reports nothing
within range afterwards, and the merge oracle accepts every tested pair. -/
def cex_oracles : MergeOracles where
  resid := fun _ others _ _ => if others.length = 2 then ([10, 1], [0, 0]) else ([10], [0])
  is_merge := fun _ _ _ _ _ => true
  raw_template := fun _ => []

/-- Counterexample to claim C1: the input `[0, 1, 2]` passes the merge
entry assert, yet the returned label array `[0, 2, 2]` has a gap at id `1`
(id `1` was absorbed into id `2` and no compaction is performed). -/
theorem merge_compaction_counterexample :
    (∀ v ∈ ([0, 1, 2] : List ℤ), -1 ≤ v) ∧
    maxN1 [0, 1, 2] + 1 = (n_nonneg_values [0, 1, 2] : ℤ) ∧
    merge_clusters cex_oracles 5 [0, 1, 2] [[], [], []] [0, 1, 2] [0, 0, 0] 5 true =
      some ([0, 0, 0], [0, 2, 2]) ∧
    ¬ LabelsCompact [0, 2, 2] := by
  refine ⟨by decide, by decide, by decide, ?_⟩
  rintro ⟨K, h1, h2⟩
  rcases h1 2 (by simp) with h | ⟨-, hK⟩
  · exact absurd h (by decide)
  · have hK3 : 3 ≤ K := by omega
    have := h2 1 (by omega)
    exact absurd this (by decide)

/-- Bundled amended claim C1: the output label array of either top-level
run contains only `-1` and non-negative cluster ids (no contiguity is
guaranteed, since neither run compacts its label space). -/
def LabelDomainSpec (fuelS : ℕ) (labelsS : List ℤ) (n_events : ℕ)
    (steps : List ((List ℕ → Option (List ℤ)) × Bool)) (O : MergeOracles)
    (fuelM : ℕ) (labelsM : List ℤ) (templates : List Template) (snrs : List ℚ)
    (times : List ℤ) (maxd : ℚ) (recursive : Bool) : Prop :=
  (∀ out, split_clusters fuelS labelsS n_events steps = .ok out →
    ∀ v ∈ out, -1 ≤ v) ∧
  (∀ out, merge_clusters O fuelM labelsM templates snrs times maxd recursive = some out →
    ∀ v ∈ out.2, -1 ≤ v)

/-- Amended claim C1: for inputs over `{-1} ∪ ℕ` (and split tests that use
only `-1` as a negative sub-label), both runs return label arrays over
`{-1} ∪ ℕ`; contiguity of the non-negative ids is not preserved, as
`merge_compaction_counterexample` shows. -/
theorem label_domain_preserved (fuelS : ℕ) (labelsS : List ℤ) (n_events : ℕ)
    (steps : List ((List ℕ → Option (List ℤ)) × Bool)) (O : MergeOracles)
    (fuelM : ℕ) (labelsM : List ℤ) (templates : List Template) (snrs : List ℚ)
    (times : List ℤ) (maxd : ℚ) (recursive : Bool)
    (hdomS : ∀ v ∈ labelsS, -1 ≤ v)
    (htests : ∀ st ∈ steps, ∀ u subs, st.1 u = some subs → ∀ s ∈ subs, -1 ≤ s)
    (hdomM : ∀ v ∈ labelsM, -1 ≤ v) :
    LabelDomainSpec fuelS labelsS n_events steps O fuelM labelsM templates
      snrs times maxd recursive := by
  constructor
  · intro out hout v hv
    unfold split_clusters at hout
    cases hch : split_clusters_checks labelsS n_events with
    | error e => rw [hch] at hout; cases hout
    | ok u =>
      rw [hch] at hout
      have hout' := Option.some.inj (congrArg Except.toOption hout)
      rw [← hout'] at hv
      exact (split_steps_invariant steps fuelS htests labelsS hdomS).2.1 v hv
  · intro out hout v hv
    unfold merge_clusters at hout
    by_cases hck : maxN1 labelsM + 1 = (n_nonneg_values labelsM : ℤ) ∧
        n_nonneg_values labelsM = templates.length
    · rw [if_pos hck] at hout
      have hout' := Option.some.inj hout
      have hinv := merge_loop_invariant O recursive maxd fuelM
        ⟨labelsM, times, (List.range templates.length).map
          (fun i => (Int.ofNat i, templates.getD i [])),
          (argsortQ snrs).map Int.ofNat⟩
        (by intro w hw; obtain ⟨i, -, rfl⟩ := List.mem_map.1 hw; exact Int.ofNat_nonneg i)
        hdomM
      rw [← hout'] at hv
      exact hinv.2.1 v hv
    · rw [if_neg hck] at hout
      cases hout

/-- Witness for the amended C1 at concrete inputs. -/
theorem label_domain_preserved_witness :
    LabelDomainSpec 4 [1, -1, 0] 3 [(fun _ => none, true)] demo_merge_oracles
      3 [1, 0, -1] [[], []] [0, 1] [0, 0, 0] 5 false :=
  label_domain_preserved 4 [1, -1, 0] 3 [(fun _ => none, true)] demo_merge_oracles
    3 [1, 0, -1] [[], []] [0, 1] [0, 0, 0] 5 false
    (by decide)
    (by
      rintro st hst u subs hsubs
      rw [List.mem_singleton] at hst
      subst hst
      exact Option.noConfusion hsubs)
    (by decide)

end SpikePsvae
